import Mathlib

/-!
Verification of the treemap-demo core (`src/treemap.ts`): the data model
(`TreeNode`), the hierarchy builder (`generateHierarchicalData` /
`generateSubtree`), the slice-and-dice layout engine (`createTreemapLayout` /
`layoutNode`), and the colorizer (`getColorForDepth`).

Modelling conventions:
- JavaScript numbers are embedded as exact rationals (`ℚ`); the integer
  quantities (node counters, depths) are `ℕ`/`ℤ` as appropriate.
- The seeded PRNG (`seedrandom`) is abstracted as a keyed family of draw
  streams `String → ℕ → ℚ`; a draw `rng()` is the value of the stream at the
  next index, and the index is threaded explicitly through the computation in
  source draw order.
- The mutable tree of the source is embedded as an inductive value; the
  parent back-pointer is not represented (paths are accumulated along the
  recursion instead, exactly as `getPath` resolves them), and the layout
  fields (`x`, `y`, `width`, `height`) written by `layoutNode` are carried as
  an explicit `Rect` argument.
- `window.innerWidth` / `window.innerHeight` read by `createTreemapLayout`
  are modelled as explicit viewport arguments.
-/

namespace Treemap

/-- Embedding of the `TreeNode` class data: `name`, `value` (own weight),
`depth`, and the ordered list of children. -/
inductive TreeNode where
  | mk (name : String) (value : ℚ) (depth : ℕ) (children : List TreeNode)

/-- Accessor for the `children` field. -/
def TreeNode.children : TreeNode → List TreeNode
  | .mk _ _ _ cs => cs

/-- Accessor for the `name` field. -/
def TreeNode.name : TreeNode → String
  | .mk n _ _ _ => n

/-- Accessor for the `value` (own weight) field. -/
def TreeNode.value : TreeNode → ℚ
  | .mk _ v _ _ => v

/-- Accessor for the `depth` field. -/
def TreeNode.depth : TreeNode → ℕ
  | .mk _ _ d _ => d

@[simp] theorem TreeNode.children_mk (n : String) (v : ℚ) (d : ℕ) (cs : List TreeNode) :
    (TreeNode.mk n v d cs).children = cs := rfl

@[simp] theorem TreeNode.name_mk (n : String) (v : ℚ) (d : ℕ) (cs : List TreeNode) :
    (TreeNode.mk n v d cs).name = n := rfl

@[simp] theorem TreeNode.value_mk (n : String) (v : ℚ) (d : ℕ) (cs : List TreeNode) :
    (TreeNode.mk n v d cs).value = v := rfl

@[simp] theorem TreeNode.depth_mk (n : String) (v : ℚ) (d : ℕ) (cs : List TreeNode) :
    (TreeNode.mk n v d cs).depth = d := rfl

theorem TreeNode.sizeOf_lt_of_mem_children {c t : TreeNode} (h : c ∈ t.children) :
    sizeOf c < sizeOf t := by
  cases t with
  | mk n v d cs =>
    have h1 := List.sizeOf_lt_of_mem (show c ∈ cs from h)
    simp only [TreeNode.mk.sizeOf_spec]
    omega

/-- Embedding of `TreeNode.getTotalValue`: the own weight for a leaf, the sum
of the children's aggregate weights otherwise. -/
def getTotalValue (t : TreeNode) : ℚ :=
  if t.children.length = 0 then t.value
  else (t.children.attach.map (fun c => getTotalValue c.1)).sum
termination_by sizeOf t
decreasing_by
  exact TreeNode.sizeOf_lt_of_mem_children c.2

@[simp] theorem getTotalValue_mk (n : String) (v : ℚ) (d : ℕ) (cs : List TreeNode) :
    getTotalValue (.mk n v d cs) = if cs.length = 0 then v else (cs.map getTotalValue).sum := by
  rw [getTotalValue]
  simp [List.attach_map_coe]

/-- Strict descendants of a node: the children together with their own
descendants, in pre-order. -/
def descendants (t : TreeNode) : List TreeNode :=
  t.children.attach.flatMap (fun c => c.1 :: descendants c.1)
termination_by sizeOf t
decreasing_by
  exact TreeNode.sizeOf_lt_of_mem_children c.2

/-- Every node of the subtree rooted at `t`, the root `t` included. -/
def allNodes (t : TreeNode) : List TreeNode :=
  t :: descendants t

/-- The node's total child weight, exactly as `layoutNode` computes it:
`node.children.reduce((sum, child) => sum + child.getTotalValue(), 0)`. -/
def totalChildValue (node : TreeNode) : ℚ :=
  (node.children.map getTotalValue).sum

/-- Children sorted descending by aggregate weight, exactly as `layoutNode`
computes `[...node.children].sort((a, b) => b.getTotalValue() - a.getTotalValue())`:
a stable sort with respect to the comparator, embedded as a merge sort with
the total preorder `getTotalValue b ≤ getTotalValue a`. -/
def sortedChildren (node : TreeNode) : List TreeNode :=
  node.children.mergeSort (fun a b => decide (getTotalValue b ≤ getTotalValue a))

/-- A layout rectangle: the `x`, `y`, `width`, `height` fields that
`layoutNode` writes into a node. -/
structure Rect where
  x : ℚ
  y : ℚ
  width : ℚ
  height : ℚ
deriving DecidableEq

/-- Embedding of the `FlatNode` record pushed by `layoutNode`. -/
structure FlatNode where
  node : TreeNode
  x : ℚ
  y : ℚ
  width : ℚ
  height : ℚ
  depth : ℕ
  name : String
  path : String

/-- One pass of the child-placement loop of `layoutNode`: walk the sorted
children accumulating `offset`, assigning each child the rectangle the source
writes into `child.x/y/width/height`. -/
def layoutChildren (useHorizontal : Bool) (availableSize total : ℚ) (r : Rect) :
    List TreeNode → ℚ → List (TreeNode × Rect)
  | [], _ => []
  | child :: rest, offset =>
    let childSize := availableSize * (getTotalValue child / total)
    let childRect : Rect :=
      if useHorizontal then ⟨r.x + offset, r.y, childSize, r.height⟩
      else ⟨r.x, r.y + offset, r.width, childSize⟩
    (child, childRect) :: layoutChildren useHorizontal availableSize total r rest (offset + childSize)

/-- The rectangles `layoutNode` assigns to the (sorted) children of `node`
when `node` currently occupies `r`: split axis chosen by `node.width > node.height`,
extent proportional to aggregate weight. -/
def assignedRects (node : TreeNode) (r : Rect) : List (TreeNode × Rect) :=
  let useHorizontal := decide (r.height < r.width)
  let availableSize := if useHorizontal then r.width else r.height
  layoutChildren useHorizontal availableSize (totalChildValue node) r (sortedChildren node) 0

theorem mem_layoutChildren {u : Bool} {a t : ℚ} {r : Rect} :
    ∀ {l : List TreeNode} {off : ℚ} {p : TreeNode × Rect},
      p ∈ layoutChildren u a t r l off → p.1 ∈ l := by
  intro l
  induction l with
  | nil => intro off p h; simp [layoutChildren] at h
  | cons c rest ih =>
    intro off p h
    rw [layoutChildren] at h
    rcases List.mem_cons.mp h with h1 | h1
    · subst h1; simp
    · exact List.mem_cons_of_mem _ (ih h1)

theorem mem_assignedRects {node : TreeNode} {r : Rect} {p : TreeNode × Rect}
    (h : p ∈ assignedRects node r) : p.1 ∈ node.children := by
  have h1 := mem_layoutChildren h
  have h2 : p.1 ∈ sortedChildren node := h1
  rw [sortedChildren, List.mem_mergeSort] at h2
  exact h2

/-- Embedding of the recursive `layoutNode`: push the node's flat record,
stop on childless nodes, stop on zero total child weight, otherwise recurse
into each child at its assigned rectangle. The node's resolved path is
accumulated in `parentPath` (the parent chain of `getPath`). -/
def layoutNode (node : TreeNode) (r : Rect) (parentPath : String) : List FlatNode :=
  ⟨node, r.x, r.y, r.width, r.height, node.depth, node.name,
    parentPath ++ "/" ++ node.name⟩ ::
    (if node.children.length = 0 then []
     else if totalChildValue node = 0 then []
     else (assignedRects node r).attach.flatMap
        (fun p => layoutNode p.1.1 p.1.2 (parentPath ++ "/" ++ node.name)))
termination_by sizeOf node
decreasing_by
  exact TreeNode.sizeOf_lt_of_mem_children (mem_assignedRects p.2)

theorem layoutNode_eq (node : TreeNode) (r : Rect) (parentPath : String) :
    layoutNode node r parentPath =
      ⟨node, r.x, r.y, r.width, r.height, node.depth, node.name,
        parentPath ++ "/" ++ node.name⟩ ::
      (if node.children.length = 0 then []
       else if totalChildValue node = 0 then []
       else (assignedRects node r).flatMap
          (fun p => layoutNode p.1 p.2 (parentPath ++ "/" ++ node.name))) := by
  rw [layoutNode]
  congr 1
  split
  · rfl
  split
  · rfl
  rw [List.flatMap_def, List.flatMap_def]
  congr 1
  exact List.attach_map_coe (assignedRects node r)
    (fun q => layoutNode q.1 q.2 (parentPath ++ "/" ++ node.name))

/-- Embedding of `createTreemapLayout`: initialize the root rectangle to the
viewport `(0, 0, width, height)` and run `layoutNode` from the root. The
`width`/`height` arguments model `window.innerWidth` / `window.innerHeight`. -/
def createTreemapLayout (root : TreeNode) (width height : ℚ) : List FlatNode :=
  layoutNode root ⟨0, 0, width, height⟩ ""

/-- Embedding of the `ColorTuple` type `[r, g, b, a]`. -/
structure ColorTuple where
  r : ℚ
  g : ℚ
  b : ℚ
  a : ℚ
deriving DecidableEq

/-- The fixed base palette of `getColorForDepth` (9 RGBA tuples). -/
def colors : List ColorTuple :=
  [⟨255, 87, 87, 200⟩, ⟨255, 193, 7, 200⟩, ⟨76, 175, 80, 200⟩,
   ⟨33, 150, 243, 200⟩, ⟨156, 39, 176, 200⟩, ⟨255, 152, 0, 200⟩,
   ⟨0, 150, 136, 200⟩, ⟨121, 85, 72, 200⟩, ⟨96, 125, 139, 200⟩]

/-- Embedding of `getColorForDepth`. The `seedFamily` argument models the
`seedrandom` algorithm as a keyed family of draw streams; the jitter draws are
the first three values of the stream keyed by the string `seed ++ ":" ++ key`.
A missing key (`none`, JavaScript `undefined`) and the empty-string key are
both falsy in the source's `if (!key)` test, and both return the base color
unmodified. -/
def getColorForDepth (depth : ℕ) (key : Option String) (seed : ℤ)
    (seedFamily : String → ℕ → ℚ) : ColorTuple :=
  let baseColor := colors.getD (depth % colors.length) ⟨0, 0, 0, 0⟩
  match key with
  | none => baseColor
  | some k =>
    if k = "" then baseColor
    else
      let jitterRng := seedFamily (toString seed ++ ":" ++ k)
      let variation : ℚ := 24
      let v1 := (jitterRng 0 - 1/2) * 2 * variation
      let v2 := (jitterRng 1 - 1/2) * 2 * variation
      let v3 := (jitterRng 2 - 1/2) * 2 * variation
      ⟨max 0 (min 255 (baseColor.r + v1)),
       max 0 (min 255 (baseColor.g + v2)),
       max 0 (min 255 (baseColor.b + v3)),
       baseColor.a⟩

/-- Embedding of `DataGenerationOptions` after the source applies its
destructuring defaults (`targetNodeCount = 15000`, `maxDepth = 8`,
`minChildrenPerNode = 2`, `maxChildrenPerNode = 8`, `branchProbability = 0.6`,
`seed = 1`). -/
structure DataGenerationOptions where
  targetNodeCount : ℕ
  maxDepth : ℕ
  minChildrenPerNode : ℕ
  maxChildrenPerNode : ℕ
  branchProbability : ℚ
  seed : ℤ

/-- The mutable state threaded through `generateHierarchicalData`: the next
PRNG draw index (`k`, modelling how many times `rng()` has been called), the
global `totalNodes` counter, and `observedMaxDepth`. -/
structure GenState where
  k : ℕ
  totalNodes : ℕ
  observedMaxDepth : ℕ
deriving DecidableEq

mutual
/-- Embedding of `generateSubtree`: bail out on an exhausted budget or a
reached depth ceiling, draw the randomized child count, clamp it with the
budget, and run the child-creation loop. Returns the created children (the
nodes appended to `parent`), the `usedNodes` return value, and the updated
state. -/
def generateSubtree (cfg : DataGenerationOptions) (f : ℕ → ℚ)
    (currentDepth : ℕ) (remainingNodes : ℤ) (s : GenState) :
    List TreeNode × ℤ × GenState :=
  if remainingNodes ≤ 0 ∨ cfg.maxDepth ≤ currentDepth then ([], 0, s)
  else
    let randomizedChildrenCount : ℤ :=
      ⌊f s.k * ((cfg.maxChildrenPerNode : ℚ) - (cfg.minChildrenPerNode : ℚ) + 1)⌋
        + (cfg.minChildrenPerNode : ℤ)
    let numChildren : ℤ := min randomizedChildrenCount remainingNodes
    childLoop cfg f currentDepth numChildren remainingNodes numChildren.toNat 0
      { s with k := s.k + 1 }
termination_by ((cfg.maxDepth - currentDepth), 1, 0)
decreasing_by all_goals first
  | (apply Prod.Lex.left; omega)
  | (apply Prod.Lex.right; first
      | (apply Prod.Lex.left; omega)
      | (apply Prod.Lex.right; omega))

/-- Embedding of the `for` loop inside `generateSubtree`. The loop index is
represented by the remaining iteration count `fuel = numChildren - i`; each
iteration checks `usedNodes < remainingNodes`, creates the child (drawing its
weight), always draws the branching trial, and recurses into the child when
the trial succeeds and the depth permits. -/
def childLoop (cfg : DataGenerationOptions) (f : ℕ → ℚ)
    (currentDepth : ℕ) (numChildren remainingNodes : ℤ) (fuel : ℕ)
    (usedNodes : ℤ) (s : GenState) : List TreeNode × ℤ × GenState :=
  match fuel with
  | 0 => ([], usedNodes, s)
  | fuel + 1 =>
    if remainingNodes ≤ usedNodes then ([], usedNodes, s)
    else
      let childName := "node_" ++ toString s.totalNodes
      let childValue : ℤ := ⌊f s.k * 100⌋ + 10
      let s1 : GenState :=
        { k := s.k + 1, totalNodes := s.totalNodes + 1,
          observedMaxDepth := max s.observedMaxDepth (currentDepth + 1) }
      let used1 := usedNodes + 1
      let rBranch := f s1.k
      let s2 : GenState := { s1 with k := s1.k + 1 }
      if h : rBranch < cfg.branchProbability ∧ currentDepth + 1 < cfg.maxDepth then
        let childrenToGenerate : ℤ :=
          ⌊((remainingNodes - used1 : ℤ) : ℚ) / ((numChildren : ℤ) : ℚ)⌋
        let res := generateSubtree cfg f (currentDepth + 1) childrenToGenerate s2
        let child := TreeNode.mk childName (childValue : ℚ) (currentDepth + 1) res.1
        let rest := childLoop cfg f currentDepth numChildren remainingNodes fuel
          (used1 + res.2.1) res.2.2
        (child :: rest.1, rest.2.1, rest.2.2)
      else
        let child := TreeNode.mk childName (childValue : ℚ) (currentDepth + 1) []
        let rest := childLoop cfg f currentDepth numChildren remainingNodes fuel used1 s2
        (child :: rest.1, rest.2.1, rest.2.2)
termination_by ((cfg.maxDepth - currentDepth), 0, fuel)
decreasing_by all_goals first
  | (apply Prod.Lex.left; omega)
  | (apply Prod.Lex.right; first
      | (apply Prod.Lex.left; omega)
      | (apply Prod.Lex.right; omega))
end

/-- Embedding of the attempt loop of `generateHierarchicalData`:
`while (totalNodes < targetNodeCount && attempts < 10)`. The `attempts < 10`
conjunct is represented by the structural fuel (initially 10); `attempts`
counts the iterations actually executed. Returns the accumulated root
children, the final state, and the attempt count. -/
def attemptLoop (cfg : DataGenerationOptions) (f : ℕ → ℚ) :
    ℕ → ℕ → List TreeNode → GenState → List TreeNode × GenState × ℕ
  | 0, attempts, rootChildren, s => (rootChildren, s, attempts)
  | fuel + 1, attempts, rootChildren, s =>
    if s.totalNodes < cfg.targetNodeCount then
      let nodesToGenerate : ℤ :=
        (cfg.targetNodeCount : ℤ) - (s.totalNodes : ℤ) + ⌊f s.k * 5000⌋
      let res := generateSubtree cfg f 0 nodesToGenerate { s with k := s.k + 1 }
      attemptLoop cfg f fuel (attempts + 1) (rootChildren ++ res.1) res.2.2
    else (rootChildren, s, attempts)

/-- The record returned by `generateHierarchicalData`: the root node and the
`nodeCount` / `maxDepth` metrics, together with the loop's final `attempts`
counter (a local variable of the source, exposed here for the attempt-cap
property). -/
structure GenResult where
  root : TreeNode
  nodeCount : ℕ
  maxDepth : ℕ
  attempts : ℕ

/-- Embedding of `generateHierarchicalData`: seed the PRNG from
`String(seed)`, start from a root `('root', 0, 0)` with `totalNodes = 1` and
`observedMaxDepth = 0`, and run the capped attempt loop. The `seedFamily`
argument models the `seedrandom` algorithm (key string to draw stream). -/
def generateHierarchicalData (cfg : DataGenerationOptions)
    (seedFamily : String → ℕ → ℚ) : GenResult :=
  let f := seedFamily (toString cfg.seed)
  let s0 : GenState := { k := 0, totalNodes := 1, observedMaxDepth := 0 }
  let res := attemptLoop cfg f 10 0 [] s0
  { root := TreeNode.mk "root" 0 0 res.1,
    nodeCount := res.2.1.totalNodes,
    maxDepth := res.2.1.observedMaxDepth,
    attempts := res.2.2 }

theorem TreeNode.strong_induction {P : TreeNode → Prop}
    (ih : ∀ t, (∀ c ∈ t.children, P c) → P t) (t : TreeNode) : P t :=
  ih t (fun c hc => TreeNode.strong_induction ih c)
termination_by sizeOf t
decreasing_by exact TreeNode.sizeOf_lt_of_mem_children hc

theorem descendants_eq (t : TreeNode) :
    descendants t = t.children.flatMap (fun c => c :: descendants c) := by
  rw [descendants, List.flatMap_def, List.flatMap_def]
  congr 1
  exact List.attach_map_coe t.children (fun c => c :: descendants c)

theorem mem_descendants {x t : TreeNode} :
    x ∈ descendants t ↔ ∃ c ∈ t.children, x = c ∨ x ∈ descendants c := by
  rw [descendants_eq, List.mem_flatMap]
  simp only [List.mem_cons]

/-- C9. Child ordering in layout: at every node, the sorted child list the
layout walks is a permutation of the node's children, is sorted in descending
order of aggregate weight, and is stable — for every weight value, the
children of exactly that weight appear in their original insertion order. The
source sorts a copy (`[...node.children]`), and in this embedding
`node.children` is untouched by construction, so the permutation statement is
about the unmodified original list. -/
theorem child_ordering (node : TreeNode) :
    (sortedChildren node).Perm node.children
  ∧ (sortedChildren node).Pairwise (fun a b => getTotalValue b ≤ getTotalValue a)
  ∧ (∀ q : ℚ, (sortedChildren node).filter (fun c => decide (getTotalValue c = q))
       = node.children.filter (fun c => decide (getTotalValue c = q))) := by
  have htrans : ∀ a b c : TreeNode,
      (fun a b => decide (getTotalValue b ≤ getTotalValue a)) a b = true →
      (fun a b => decide (getTotalValue b ≤ getTotalValue a)) b c = true →
      (fun a b => decide (getTotalValue b ≤ getTotalValue a)) a c = true := by
    intro a b c hab hbc
    simp only [decide_eq_true_eq] at hab hbc ⊢
    exact le_trans hbc hab
  have htotal : ∀ a b : TreeNode,
      ((fun a b => decide (getTotalValue b ≤ getTotalValue a)) a b
        || (fun a b => decide (getTotalValue b ≤ getTotalValue a)) b a) = true := by
    intro a b
    simp only [Bool.or_eq_true, decide_eq_true_eq]
    exact le_total (getTotalValue b) (getTotalValue a)
  refine ⟨List.mergeSort_perm node.children _, ?_, ?_⟩
  · have h := List.sorted_mergeSort htrans htotal node.children
    rw [sortedChildren]
    exact h.imp (fun hab => by simpa using hab)
  · intro q
    rw [sortedChildren]
    set p : TreeNode → Bool := fun c => decide (getTotalValue c = q) with hp
    set le : TreeNode → TreeNode → Bool :=
      fun a b => decide (getTotalValue b ≤ getTotalValue a) with hle
    have hfsub : (node.children.filter p).Sublist (node.children.mergeSort le) := by
      apply List.sublist_mergeSort htrans htotal
      · apply List.pairwise_of_forall_mem_list
        intro a ha b hb
        have ha' : getTotalValue a = q := by
          have := (List.mem_filter.mp ha).2
          simpa [hp] using this
        have hb' : getTotalValue b = q := by
          have := (List.mem_filter.mp hb).2
          simpa [hp] using this
        simp [hle, ha', hb']
      · exact List.filter_sublist node.children
    have hsub2 : (node.children.filter p).Sublist
        ((node.children.mergeSort le).filter p) := by
      have h2 := List.Sublist.filter p hfsub
      have h3 : (node.children.filter p).filter p = node.children.filter p := by
        rw [List.filter_filter]
        simp
      rwa [h3] at h2
    have hperm : ((node.children.mergeSort le).filter p).Perm
        (node.children.filter p) :=
      (List.mergeSort_perm node.children le).filter p
    exact (List.Sublist.eq_of_length hsub2 hperm.length_eq.symm).symm

/-- C4. Zero-total-weight short-circuit: when a node's children's aggregate
weights sum to exactly 0, `layoutNode` emits the node's own flat record and
nothing else — no child or deeper descendant is visited, no child rectangle
is computed (in the source, the children's `x/y/width/height` are left
untouched), and the `childValue / totalChildValue` division branch is never
reached. -/
theorem zero_total_short_circuit (node : TreeNode) (r : Rect) (parentPath : String)
    (h : totalChildValue node = 0) :
    layoutNode node r parentPath =
      [⟨node, r.x, r.y, r.width, r.height, node.depth, node.name,
        parentPath ++ "/" ++ node.name⟩] := by
  rw [layoutNode_eq]
  congr 1
  split
  · rfl
  · simp [h]

/-- Concrete sibling pair with zero aggregate weights, used to witness the
zero-total short-circuit. -/
def zeroTotalNode : TreeNode :=
  .mk "n" 5 0 [.mk "a" 0 1 [], .mk "b" 0 1 []]

theorem zero_total_short_circuit_witness :
    totalChildValue zeroTotalNode = 0 ∧
      layoutNode zeroTotalNode ⟨0, 0, 100, 50⟩ "" =
        [⟨zeroTotalNode, 0, 0, 100, 50, 0, "n", "/n"⟩] := by
  have h : totalChildValue zeroTotalNode = 0 := by
    simp [totalChildValue, zeroTotalNode]
  exact ⟨h, zero_total_short_circuit zeroTotalNode ⟨0, 0, 100, 50⟩ "" h⟩

/-- C1 (amended). The layout engine performs no viewport validation: for
every tree and every viewport — a zero-size one included — `createTreemapLayout`
returns the normal flat-record list, starting with the root's record. The
source has no rejection path for a missing or zero-size viewport. -/
theorem layout_accepts_zero_viewport (root : TreeNode) (width height : ℚ) :
    ∃ rest, createTreemapLayout root width height =
      ⟨root, 0, 0, width, height, root.depth, root.name, "" ++ "/" ++ root.name⟩ :: rest := by
  rw [createTreemapLayout, layoutNode_eq]
  exact ⟨_, rfl⟩

/-- C1 (counterexample). At the concrete zero-size viewport `0 × 0` and a
one-node tree, `createTreemapLayout` returns a normal flat-record list — it
does not reject the layout request, contradicting the claim that a zero-size
viewport is a fatal precondition failure. -/
theorem zero_viewport_counterexample :
    createTreemapLayout (.mk "root" 0 0 []) 0 0 =
      [⟨.mk "root" 0 0 [], 0, 0, 0, 0, 0, "root", "/root"⟩] := by
  rw [createTreemapLayout, layoutNode_eq]
  simp

theorem layoutNode_node_mem (t : TreeNode) : ∀ (r : Rect) (p : String),
    ∀ fn ∈ layoutNode t r p, fn.node = t ∨ fn.node ∈ descendants t := by
  refine TreeNode.strong_induction
    (P := fun t => ∀ (r : Rect) (p : String),
      ∀ fn ∈ layoutNode t r p, fn.node = t ∨ fn.node ∈ descendants t) ?_ t
  intro t ih r p fn hfn
  rw [layoutNode_eq] at hfn
  rcases List.mem_cons.mp hfn with h1 | h1
  · left; rw [h1]
  · right
    split at h1
    · simp at h1
    split at h1
    · simp at h1
    rw [List.mem_flatMap] at h1
    obtain ⟨pa, hpa, hfn2⟩ := h1
    have hc : pa.1 ∈ t.children := mem_assignedRects hpa
    rcases ih pa.1 hc pa.2 _ fn hfn2 with h2 | h2
    · exact mem_descendants.mpr ⟨pa.1, hc, Or.inl h2⟩
    · exact mem_descendants.mpr ⟨pa.1, hc, Or.inr h2⟩

/-- C3. Pre-order invariant: the flat output of `layoutNode` starts with the
node's own record (index 0), and every record after it belongs to a strict
descendant of the node. Since this holds at every visited node and each
visited subtree occupies a contiguous block of the output, a node's record
index is strictly less than the record index of every descendant that appears
in the output: the parent is always emitted before its descendants. -/
theorem preorder_invariant (node : TreeNode) (r : Rect) (parentPath : String) :
    ∃ rest, layoutNode node r parentPath =
        ⟨node, r.x, r.y, r.width, r.height, node.depth, node.name,
          parentPath ++ "/" ++ node.name⟩ :: rest
      ∧ ∀ fn ∈ rest, fn.node ∈ descendants node := by
  refine ⟨_, layoutNode_eq node r parentPath, ?_⟩
  intro fn hfn
  split at hfn
  · simp at hfn
  split at hfn
  · simp at hfn
  rw [List.mem_flatMap] at hfn
  obtain ⟨pa, hpa, h2⟩ := hfn
  have hc : pa.1 ∈ node.children := mem_assignedRects hpa
  rcases layoutNode_node_mem pa.1 pa.2 _ fn h2 with h | h
  · exact mem_descendants.mpr ⟨pa.1, hc, Or.inl h⟩
  · exact mem_descendants.mpr ⟨pa.1, hc, Or.inr h⟩

/-- The extent of a rectangle along the split axis (`width` when slicing
horizontally, `height` when slicing vertically). -/
def Rect.axisLen (r : Rect) (u : Bool) : ℚ := if u then r.width else r.height

/-- The position of a rectangle along the split axis (`x` when slicing
horizontally, `y` when slicing vertically). -/
def Rect.axisPos (r : Rect) (u : Bool) : ℚ := if u then r.x else r.y

theorem layoutChildren_map_fst (u : Bool) (a t : ℚ) (r : Rect) :
    ∀ (l : List TreeNode) (off : ℚ),
      (layoutChildren u a t r l off).map Prod.fst = l := by
  intro l
  induction l with
  | nil => intro off; simp [layoutChildren]
  | cons c rest ih => intro off; simp [layoutChildren, ih]

theorem layoutChildren_axisLen (u : Bool) (a t : ℚ) (r : Rect) :
    ∀ (l : List TreeNode) (off : ℚ),
      (layoutChildren u a t r l off).map (fun p => p.2.axisLen u) =
        l.map (fun c => a * (getTotalValue c / t)) := by
  intro l
  induction l with
  | nil => intro off; simp [layoutChildren]
  | cons c rest ih =>
    intro off
    simp only [layoutChildren, List.map_cons]
    rw [ih]
    congr 1
    cases u <;> simp [Rect.axisLen]

theorem layoutChildren_perp (u : Bool) (a t : ℚ) (r : Rect) :
    ∀ (l : List TreeNode) (off : ℚ), ∀ p ∈ layoutChildren u a t r l off,
      p.2.axisLen (!u) = r.axisLen (!u) ∧ p.2.axisPos (!u) = r.axisPos (!u) := by
  intro l
  induction l with
  | nil => intro off p hp; simp [layoutChildren] at hp
  | cons c rest ih =>
    intro off p hp
    rw [layoutChildren] at hp
    rcases List.mem_cons.mp hp with h1 | h1
    · subst h1
      cases u <;> simp [Rect.axisLen, Rect.axisPos]
    · exact ih (off + _) p h1

theorem layoutChildren_headPos (u : Bool) (a t : ℚ) (r : Rect) :
    ∀ (l : List TreeNode) (off : ℚ) (p : TreeNode × Rect),
      (layoutChildren u a t r l off).head? = some p →
        p.2.axisPos u = r.axisPos u + off := by
  intro l
  cases l with
  | nil => intro off p hp; simp [layoutChildren] at hp
  | cons c rest =>
    intro off p hp
    rw [layoutChildren] at hp
    simp only [List.head?_cons, Option.some.injEq] at hp
    subst hp
    cases u <;> simp [Rect.axisPos]

theorem layoutChildren_chain (u : Bool) (a t : ℚ) (r : Rect) :
    ∀ (l : List TreeNode) (off : ℚ),
      (layoutChildren u a t r l off).Chain'
        (fun p q => q.2.axisPos u = p.2.axisPos u + p.2.axisLen u) := by
  intro l
  induction l with
  | nil => intro off; simp [layoutChildren]
  | cons c rest ih =>
    intro off
    rw [layoutChildren]
    refine List.chain'_cons'.mpr ⟨?_, ih _⟩
    intro q hq
    have hq' := layoutChildren_headPos u a t r rest
      (off + a * (getTotalValue c / t)) q (by simpa using hq)
    cases u <;> simp_all [Rect.axisPos, Rect.axisLen] <;> ring

theorem map_div_sum (l : List TreeNode) (t : ℚ) (f : TreeNode → ℚ) :
    (l.map (fun c => f c / t)).sum = (l.map f).sum / t := by
  induction l with
  | nil => simp
  | cons c cs ih => simp [ih, add_div]

theorem sortedChildren_total (node : TreeNode) :
    ((sortedChildren node).map getTotalValue).sum = totalChildValue node := by
  rw [totalChildValue]
  exact ((List.mergeSort_perm node.children _).map getTotalValue).sum_eq

/-- C2. Layout tiling for a node with strictly positive total child weight:
over exact rational arithmetic, (i) the extents assigned to the children
along the split axis sum exactly to the node's own extent along that axis;
(ii) every child inherits the perpendicular extent and perpendicular position
unchanged; (iii) the first child starts at the node's own position along the
split axis; (iv) consecutive children abut — each child starts exactly where
the previous one ends — so the assigned rectangles tile the node's rectangle
without overlap. The split flag `decide (r.height < r.width)` is the source's
`node.width > node.height`. -/
theorem layout_tiling (node : TreeNode) (r : Rect) (h : 0 < totalChildValue node) :
    ((assignedRects node r).map
        (fun p => p.2.axisLen (decide (r.height < r.width)))).sum
      = r.axisLen (decide (r.height < r.width))
  ∧ (∀ p ∈ assignedRects node r,
       p.2.axisLen (!decide (r.height < r.width)) = r.axisLen (!decide (r.height < r.width))
       ∧ p.2.axisPos (!decide (r.height < r.width)) = r.axisPos (!decide (r.height < r.width)))
  ∧ (∀ p, (assignedRects node r).head? = some p →
       p.2.axisPos (decide (r.height < r.width)) = r.axisPos (decide (r.height < r.width)))
  ∧ (assignedRects node r).Chain'
      (fun p q => q.2.axisPos (decide (r.height < r.width))
        = p.2.axisPos (decide (r.height < r.width))
          + p.2.axisLen (decide (r.height < r.width))) := by
  have hT : totalChildValue node ≠ 0 := ne_of_gt h
  refine ⟨?_, ?_, ?_, ?_⟩
  · rw [assignedRects]
    rw [layoutChildren_axisLen]
    rw [List.sum_map_mul_left (sortedChildren node) (fun c => getTotalValue c / totalChildValue node)]
    rw [map_div_sum, sortedChildren_total, div_self hT, mul_one]
    rw [Rect.axisLen]
  · intro p hp
    exact layoutChildren_perp _ _ _ r (sortedChildren node) 0 p hp
  · intro p hp
    have := layoutChildren_headPos _ _ _ r (sortedChildren node) 0 p hp
    rw [this, add_zero]
  · exact layoutChildren_chain _ _ _ r (sortedChildren node) 0

/-- Concrete one-child node used to witness the tiling theorem. -/
def tilingNode : TreeNode := .mk "p" 0 0 [.mk "c" 10 1 []]

/-- Concrete viewport-like rectangle (wider than tall) for the tiling witness. -/
def tilingRect : Rect := ⟨0, 0, 100, 50⟩

theorem layout_tiling_witness :
    0 < totalChildValue tilingNode
  ∧ (((assignedRects tilingNode tilingRect).map
        (fun p => p.2.axisLen (decide (tilingRect.height < tilingRect.width)))).sum
      = tilingRect.axisLen (decide (tilingRect.height < tilingRect.width))
  ∧ (∀ p ∈ assignedRects tilingNode tilingRect,
       p.2.axisLen (!decide (tilingRect.height < tilingRect.width))
         = tilingRect.axisLen (!decide (tilingRect.height < tilingRect.width))
       ∧ p.2.axisPos (!decide (tilingRect.height < tilingRect.width))
         = tilingRect.axisPos (!decide (tilingRect.height < tilingRect.width)))
  ∧ (∀ p, (assignedRects tilingNode tilingRect).head? = some p →
       p.2.axisPos (decide (tilingRect.height < tilingRect.width))
         = tilingRect.axisPos (decide (tilingRect.height < tilingRect.width)))
  ∧ (assignedRects tilingNode tilingRect).Chain'
      (fun p q => q.2.axisPos (decide (tilingRect.height < tilingRect.width))
        = p.2.axisPos (decide (tilingRect.height < tilingRect.width))
          + p.2.axisLen (decide (tilingRect.height < tilingRect.width)))) := by
  have h : 0 < totalChildValue tilingNode := by
    simp [totalChildValue, tilingNode]
  exact ⟨h, layout_tiling tilingNode tilingRect h⟩

/-- C8. Colorizer purity and fallback: (i) with no path key the unmodified
base palette entry for `depth mod 9` is returned; (ii) the output is a pure
function of `(depth, key, seed)` and the deterministic stream algorithm — two
calls with pointwise-equal stream families return bit-identical tuples, there
is no shared mutable jitter state; (iii) with a (non-falsy) path key, three
jitter values, each of magnitude at most 24, are added to the R, G, B
channels respectively, every color channel of the result is clamped into
`[0, 255]`, and the alpha channel is the base entry's alpha, never jittered. -/
theorem colorizer_spec (depth : ℕ) (seed : ℤ) (F : String → ℕ → ℚ)
    (hF : ∀ s n, 0 ≤ F s n ∧ F s n < 1) :
    getColorForDepth depth none seed F = colors.getD (depth % 9) ⟨0, 0, 0, 0⟩
  ∧ (∀ (key : Option String) (G : String → ℕ → ℚ), (∀ s n, F s n = G s n) →
       getColorForDepth depth key seed F = getColorForDepth depth key seed G)
  ∧ (∀ k : String, k ≠ "" →
       ∃ v1 v2 v3 : ℚ, |v1| ≤ 24 ∧ |v2| ≤ 24 ∧ |v3| ≤ 24
         ∧ getColorForDepth depth (some k) seed F =
             ⟨max 0 (min 255 ((colors.getD (depth % 9) ⟨0, 0, 0, 0⟩).r + v1)),
              max 0 (min 255 ((colors.getD (depth % 9) ⟨0, 0, 0, 0⟩).g + v2)),
              max 0 (min 255 ((colors.getD (depth % 9) ⟨0, 0, 0, 0⟩).b + v3)),
              (colors.getD (depth % 9) ⟨0, 0, 0, 0⟩).a⟩
         ∧ 0 ≤ (getColorForDepth depth (some k) seed F).r
         ∧ (getColorForDepth depth (some k) seed F).r ≤ 255
         ∧ 0 ≤ (getColorForDepth depth (some k) seed F).g
         ∧ (getColorForDepth depth (some k) seed F).g ≤ 255
         ∧ 0 ≤ (getColorForDepth depth (some k) seed F).b
         ∧ (getColorForDepth depth (some k) seed F).b ≤ 255
         ∧ (getColorForDepth depth (some k) seed F).a
             = (colors.getD (depth % 9) ⟨0, 0, 0, 0⟩).a) := by
  refine ⟨rfl, ?_, ?_⟩
  · intro key G hFG
    have hEq : F = G := funext fun s => funext fun n => hFG s n
    rw [hEq]
  · intro k hk
    have hrec : getColorForDepth depth (some k) seed F =
        ⟨max 0 (min 255 ((colors.getD (depth % 9) ⟨0, 0, 0, 0⟩).r
            + (F (toString seed ++ ":" ++ k) 0 - 1/2) * 2 * 24)),
         max 0 (min 255 ((colors.getD (depth % 9) ⟨0, 0, 0, 0⟩).g
            + (F (toString seed ++ ":" ++ k) 1 - 1/2) * 2 * 24)),
         max 0 (min 255 ((colors.getD (depth % 9) ⟨0, 0, 0, 0⟩).b
            + (F (toString seed ++ ":" ++ k) 2 - 1/2) * 2 * 24)),
         (colors.getD (depth % 9) ⟨0, 0, 0, 0⟩).a⟩ := by
      rw [getColorForDepth]
      simp [hk, colors]
    have hb : ∀ n : ℕ, |(F (toString seed ++ ":" ++ k) n - 1/2) * 2 * 24| ≤ 24 := by
      intro n
      obtain ⟨h0, h1⟩ := hF (toString seed ++ ":" ++ k) n
      rw [abs_le]
      constructor <;> nlinarith
    refine ⟨_, _, _, hb 0, hb 1, hb 2, hrec, ?_⟩
    rw [hrec]
    refine ⟨le_max_left 0 _, max_le (by norm_num) (min_le_left _ _),
            le_max_left 0 _, max_le (by norm_num) (min_le_left _ _),
            le_max_left 0 _, max_le (by norm_num) (min_le_left _ _), rfl⟩

/-- Concrete stream family (constantly 0, a value in `[0, 1)`) used by the
witnesses that need a stream satisfying the PRNG range hypothesis. -/
def constStream : String → ℕ → ℚ := fun _ _ => 0

theorem colorizer_spec_witness :
    (∀ s n, 0 ≤ constStream s n ∧ constStream s n < 1)
  ∧ (getColorForDepth 0 none 1 constStream = colors.getD (0 % 9) ⟨0, 0, 0, 0⟩
  ∧ (∀ (key : Option String) (G : String → ℕ → ℚ), (∀ s n, constStream s n = G s n) →
       getColorForDepth 0 key 1 constStream = getColorForDepth 0 key 1 G)
  ∧ (∀ k : String, k ≠ "" →
       ∃ v1 v2 v3 : ℚ, |v1| ≤ 24 ∧ |v2| ≤ 24 ∧ |v3| ≤ 24
         ∧ getColorForDepth 0 (some k) 1 constStream =
             ⟨max 0 (min 255 ((colors.getD (0 % 9) ⟨0, 0, 0, 0⟩).r + v1)),
              max 0 (min 255 ((colors.getD (0 % 9) ⟨0, 0, 0, 0⟩).g + v2)),
              max 0 (min 255 ((colors.getD (0 % 9) ⟨0, 0, 0, 0⟩).b + v3)),
              (colors.getD (0 % 9) ⟨0, 0, 0, 0⟩).a⟩
         ∧ 0 ≤ (getColorForDepth 0 (some k) 1 constStream).r
         ∧ (getColorForDepth 0 (some k) 1 constStream).r ≤ 255
         ∧ 0 ≤ (getColorForDepth 0 (some k) 1 constStream).g
         ∧ (getColorForDepth 0 (some k) 1 constStream).g ≤ 255
         ∧ 0 ≤ (getColorForDepth 0 (some k) 1 constStream).b
         ∧ (getColorForDepth 0 (some k) 1 constStream).b ≤ 255
         ∧ (getColorForDepth 0 (some k) 1 constStream).a
             = (colors.getD (0 % 9) ⟨0, 0, 0, 0⟩).a)) := by
  have hF : ∀ s n, 0 ≤ constStream s n ∧ constStream s n < 1 := by
    intro s n
    constructor <;> norm_num [constStream]
  exact ⟨hF, colorizer_spec 0 1 constStream hF⟩

/-- C7. Builder determinism: the generated tree is a pure function of the
configuration (seed included) and the deterministic sequence-source
algorithm. Two invocations with identical configuration and a pointwise-equal
stream family produce identical results — the same root tree (hence the same
sequence of name, weight, depth and child order in traversal order), the same
node count, and the same observed max depth. -/
theorem builder_determinism (cfg : DataGenerationOptions) (F G : String → ℕ → ℚ)
    (h : ∀ s n, F s n = G s n) :
    generateHierarchicalData cfg F = generateHierarchicalData cfg G := by
  have hFG : F = G := funext fun s => funext fun n => h s n
  rw [hFG]

theorem builder_determinism_witness :
    (∀ s n, constStream s n = constStream s n)
  ∧ generateHierarchicalData ⟨15000, 8, 2, 8, 3/5, 1⟩ constStream
      = generateHierarchicalData ⟨15000, 8, 2, 8, 3/5, 1⟩ constStream :=
  ⟨fun _ _ => rfl,
   builder_determinism ⟨15000, 8, 2, 8, 3/5, 1⟩ constStream constStream (fun _ _ => rfl)⟩

theorem attemptLoop_spec (cfg : DataGenerationOptions) (f : ℕ → ℚ) :
    ∀ (fuel attempts : ℕ) (kids : List TreeNode) (s : GenState),
      (attemptLoop cfg f fuel attempts kids s).2.2 ≤ attempts + fuel
    ∧ ((attemptLoop cfg f fuel attempts kids s).2.1.totalNodes ≥ cfg.targetNodeCount
       ∨ (attemptLoop cfg f fuel attempts kids s).2.2 = attempts + fuel) := by
  intro fuel
  induction fuel with
  | zero =>
    intro attempts kids s
    simp [attemptLoop]
  | succ fuel ih =>
    intro attempts kids s
    rw [attemptLoop]
    split
    case isTrue h =>
      dsimp only
      obtain ⟨h1, h2⟩ := ih (attempts + 1)
        (kids ++ (generateSubtree cfg f 0
          ((cfg.targetNodeCount : ℤ) - (s.totalNodes : ℤ) + ⌊f s.k * 5000⌋)
          { s with k := s.k + 1 }).1)
        ((generateSubtree cfg f 0
          ((cfg.targetNodeCount : ℤ) - (s.totalNodes : ℤ) + ⌊f s.k * 5000⌋)
          { s with k := s.k + 1 }).2.2)
      refine ⟨by omega, ?_⟩
      rcases h2 with h2 | h2
      · exact Or.inl h2
      · exact Or.inr (by omega)
    case isFalse h =>
      dsimp only
      exact ⟨by omega, Or.inl (by omega)⟩

/-- C6. Attempt-cap postcondition and termination: `generateHierarchicalData`
always terminates (it is a total function of the embedding) having executed
at most 10 attempts, and on return either the produced node count reached
`targetNodeCount` or exactly 10 attempts were made. In particular for a
structurally unreachable target (e.g. `maxDepth = 0`) the builder still
returns the count actually produced instead of failing. -/
theorem attempt_cap (cfg : DataGenerationOptions) (F : String → ℕ → ℚ) :
    (generateHierarchicalData cfg F).attempts ≤ 10
  ∧ ((generateHierarchicalData cfg F).nodeCount ≥ cfg.targetNodeCount
     ∨ (generateHierarchicalData cfg F).attempts = 10) := by
  have h := attemptLoop_spec cfg (F (toString cfg.seed)) 10 0 []
    { k := 0, totalNodes := 1, observedMaxDepth := 0 }
  simp only [generateHierarchicalData]
  simpa using h

theorem mem_allNodes {x t : TreeNode} :
    x ∈ allNodes t ↔ x = t ∨ ∃ c ∈ t.children, x ∈ allNodes c := by
  rw [allNodes, List.mem_cons, mem_descendants]
  constructor
  · rintro (h | ⟨c, hc, h2⟩)
    · exact Or.inl h
    · exact Or.inr ⟨c, hc, by rw [allNodes, List.mem_cons]; exact h2⟩
  · rintro (h | ⟨c, hc, h2⟩)
    · exact Or.inl h
    · refine Or.inr ⟨c, hc, ?_⟩
      rw [allNodes, List.mem_cons] at h2
      exact h2

theorem self_mem_allNodes (t : TreeNode) : t ∈ allNodes t :=
  mem_allNodes.mpr (Or.inl rfl)

/-- Well-formedness of a subtree created by `generateSubtree` at depth `d`:
its root is at depth `d + 1`, and inside it every node respects the depth
ceiling and every child is exactly one level below its parent. -/
def ChildTreeOK (maxD d : ℕ) (c : TreeNode) : Prop :=
  c.depth = d + 1
  ∧ ∀ t ∈ allNodes c, t.depth ≤ maxD ∧ ∀ cc ∈ t.children, cc.depth = t.depth + 1

theorem generateSubtree_depthOK (cfg : DataGenerationOptions) (f : ℕ → ℚ) :
    ∀ (N d : ℕ), cfg.maxDepth - d ≤ N →
      ∀ (rem : ℤ) (s : GenState),
        ∀ c ∈ (generateSubtree cfg f d rem s).1, ChildTreeOK cfg.maxDepth d c := by
  intro N
  induction N with
  | zero =>
    intro d hN rem s c hc
    have hg : rem ≤ 0 ∨ cfg.maxDepth ≤ d := by
      rcases le_or_lt rem 0 with h1 | h1
      · exact Or.inl h1
      · exact Or.inr (by omega)
    rw [generateSubtree, if_pos hg] at hc
    simp at hc
  | succ N ih =>
    intro d hN rem s c hc
    rw [generateSubtree] at hc
    by_cases hguard : rem ≤ 0 ∨ cfg.maxDepth ≤ d
    · rw [if_pos hguard] at hc
      simp at hc
    · rw [if_neg hguard] at hc
      have hd : d < cfg.maxDepth := by
        push_neg at hguard
        exact hguard.2
      have hgen : ∀ (rem2 : ℤ) (s2 : GenState),
          ∀ c2 ∈ (generateSubtree cfg f (d + 1) rem2 s2).1,
            ChildTreeOK cfg.maxDepth (d + 1) c2 := by
        intro rem2 s2
        exact ih (d + 1) (by omega) rem2 s2
      -- the child-creation loop preserves the invariant at depth d
      have hloop : ∀ (fuel : ℕ) (numC rem2 used : ℤ) (s2 : GenState),
          ∀ c2 ∈ (childLoop cfg f d numC rem2 fuel used s2).1,
            ChildTreeOK cfg.maxDepth d c2 := by
        intro fuel
        induction fuel with
        | zero =>
          intro numC rem2 used s2 c2 hc2
          rw [childLoop] at hc2
          simp at hc2
        | succ fuel ihf =>
          intro numC rem2 used s2 c2 hc2
          rw [childLoop] at hc2
          by_cases hstop : rem2 ≤ used
          · simp [hstop] at hc2
          · rw [if_neg hstop] at hc2
            dsimp only at hc2
            split at hc2
            next hbr =>
              rcases List.mem_cons.mp hc2 with h3 | h3
              · subst h3
                constructor
                · simp
                · intro t ht
                  rw [mem_allNodes] at ht
                  rcases ht with ht | ⟨g, hg, htg⟩
                  · subst ht
                    refine ⟨by simpa using hd, ?_⟩
                    intro cc hcc
                    have hok := hgen _ _ cc (by simpa using hcc)
                    simp [hok.1]
                  · have hok := hgen _ _ g (by simpa using hg)
                    exact hok.2 t htg
              · exact ihf _ _ _ _ c2 h3
            next hbr =>
              rcases List.mem_cons.mp hc2 with h3 | h3
              · subst h3
                constructor
                · simp
                · intro t ht
                  rw [mem_allNodes] at ht
                  rcases ht with ht | ⟨g, hg, htg⟩
                  · subst ht
                    refine ⟨by simpa using hd, ?_⟩
                    intro cc hcc
                    simp at hcc
                  · simp at hg
              · exact ihf _ _ _ _ c2 h3
      exact hloop _ _ _ _ _ c hc

theorem attemptLoop_childrenOK (cfg : DataGenerationOptions) (f : ℕ → ℚ) :
    ∀ (fuel attempts : ℕ) (kids : List TreeNode) (s : GenState),
      (∀ c ∈ kids, ChildTreeOK cfg.maxDepth 0 c) →
      ∀ c ∈ (attemptLoop cfg f fuel attempts kids s).1, ChildTreeOK cfg.maxDepth 0 c := by
  intro fuel
  induction fuel with
  | zero =>
    intro attempts kids s hkids c hc
    rw [attemptLoop] at hc
    exact hkids c hc
  | succ fuel ih =>
    intro attempts kids s hkids c hc
    rw [attemptLoop] at hc
    split at hc
    next h =>
      dsimp only at hc
      refine ih _ _ _ ?_ c hc
      intro c2 hc2
      rcases List.mem_append.mp hc2 with h2 | h2
      · exact hkids c2 h2
      · exact generateSubtree_depthOK cfg f cfg.maxDepth 0 (by omega) _ _ c2 h2
    next h =>
      exact hkids c hc

/-- C5. Depth invariants of the generated tree: the root has depth 0 and own
weight 0, and every node of the generated tree has `depth ≤ maxDepth`
(depths are naturals, so `0 ≤ depth` is intrinsic) with every child exactly
one level below its parent — hence every non-root node's depth equals its
parent's depth plus 1. -/
theorem depth_invariants (cfg : DataGenerationOptions) (F : String → ℕ → ℚ) :
    (generateHierarchicalData cfg F).root.depth = 0
  ∧ (generateHierarchicalData cfg F).root.value = 0
  ∧ ∀ t ∈ allNodes (generateHierarchicalData cfg F).root,
      t.depth ≤ cfg.maxDepth ∧ ∀ c ∈ t.children, c.depth = t.depth + 1 := by
  refine ⟨rfl, rfl, ?_⟩
  have hkids : ∀ c ∈ (attemptLoop cfg (F (toString cfg.seed)) 10 0 []
      { k := 0, totalNodes := 1, observedMaxDepth := 0 }).1,
      ChildTreeOK cfg.maxDepth 0 c :=
    attemptLoop_childrenOK cfg (F (toString cfg.seed)) 10 0 []
      { k := 0, totalNodes := 1, observedMaxDepth := 0 } (by intro c hc; simp at hc)
  intro t ht
  have hroot : (generateHierarchicalData cfg F).root =
      TreeNode.mk "root" 0 0 (attemptLoop cfg (F (toString cfg.seed)) 10 0 []
        { k := 0, totalNodes := 1, observedMaxDepth := 0 }).1 := rfl
  rw [hroot, mem_allNodes] at ht
  rcases ht with ht | ⟨c, hc, htc⟩
  · subst ht
    refine ⟨by simp, ?_⟩
    intro c hc
    have := (hkids c (by simpa using hc)).1
    simpa using this
  · exact (hkids c (by simpa using hc)).2 t htc

theorem allNodes_length (t : TreeNode) :
    (allNodes t).length = 1 + (t.children.map (fun c => (allNodes c).length)).sum := by
  have hmap : List.map (List.length ∘ fun c => c :: descendants c) t.children
      = t.children.map (fun c => (allNodes c).length) := by
    apply List.map_congr_left
    intro c _
    rfl
  rw [allNodes, List.length_cons, descendants_eq, List.length_flatMap, hmap]
  omega

/-- Values invariant of a subtree created by the builder: every node in it
has an own weight in `[10, 110)` and a strictly positive aggregate weight. -/
def SubtreeValuesOK (c : TreeNode) : Prop :=
  ∀ u ∈ allNodes c, (10 ≤ u.value ∧ u.value < 110) ∧ 0 < getTotalValue u

theorem generateSubtree_values (cfg : DataGenerationOptions) (f : ℕ → ℚ)
    (hf : ∀ n, 0 ≤ f n ∧ f n < 1) :
    ∀ (N d : ℕ), cfg.maxDepth - d ≤ N →
      ∀ (rem : ℤ) (s : GenState),
        (∀ c ∈ (generateSubtree cfg f d rem s).1, SubtreeValuesOK c)
      ∧ (generateSubtree cfg f d rem s).2.2.totalNodes
          = s.totalNodes
            + (((generateSubtree cfg f d rem s).1).map (fun c => (allNodes c).length)).sum := by
  have hval : ∀ k : ℕ, (10 : ℚ) ≤ ((⌊f k * 100⌋ + 10 : ℤ) : ℚ)
      ∧ ((⌊f k * 100⌋ + 10 : ℤ) : ℚ) < 110 := by
    intro k
    obtain ⟨h0, h1⟩ := hf k
    have hfl0 : 0 ≤ ⌊f k * 100⌋ := Int.floor_nonneg.mpr (by positivity)
    have hfl1 : ⌊f k * 100⌋ < 100 := by
      apply Int.floor_lt.mpr
      push_cast
      nlinarith
    constructor
    · exact_mod_cast (by omega : (10 : ℤ) ≤ ⌊f k * 100⌋ + 10)
    · exact_mod_cast (by omega : ⌊f k * 100⌋ + 10 < (110 : ℤ))
  intro N
  induction N with
  | zero =>
    intro d hN rem s
    have hg : rem ≤ 0 ∨ cfg.maxDepth ≤ d := by
      rcases le_or_lt rem 0 with h1 | h1
      · exact Or.inl h1
      · exact Or.inr (by omega)
    rw [generateSubtree, if_pos hg]
    simp
  | succ N ih =>
    intro d hN rem s
    by_cases hguard : rem ≤ 0 ∨ cfg.maxDepth ≤ d
    · rw [generateSubtree, if_pos hguard]
      simp
    · rw [generateSubtree, if_neg hguard]
      dsimp only
      have hloop : ∀ (fuel : ℕ) (numC rem2 used : ℤ) (s2 : GenState),
          (∀ c ∈ (childLoop cfg f d numC rem2 fuel used s2).1, SubtreeValuesOK c)
        ∧ (childLoop cfg f d numC rem2 fuel used s2).2.2.totalNodes
            = s2.totalNodes
              + (((childLoop cfg f d numC rem2 fuel used s2).1).map
                  (fun c => (allNodes c).length)).sum := by
        intro fuel
        induction fuel with
        | zero =>
          intro numC rem2 used s2
          rw [childLoop]
          simp
        | succ fuel ihf =>
          intro numC rem2 used s2
          rw [childLoop]
          by_cases hstop : rem2 ≤ used
          · rw [if_pos hstop]
            simp
          · rw [if_neg hstop]
            dsimp only
            split
            next hbr =>
              obtain ⟨hg1, hg2⟩ := ih (d + 1) (by omega)
                (⌊((rem2 - (used + 1) : ℤ) : ℚ) / ((numC : ℤ) : ℚ)⌋)
                { k := s2.k + 1 + 1, totalNodes := s2.totalNodes + 1,
                  observedMaxDepth := max s2.observedMaxDepth (d + 1) }
              obtain ⟨hr1, hr2⟩ := ihf numC rem2
                ((used + 1) + (generateSubtree cfg f (d + 1)
                  (⌊((rem2 - (used + 1) : ℤ) : ℚ) / ((numC : ℤ) : ℚ)⌋)
                  { k := s2.k + 1 + 1, totalNodes := s2.totalNodes + 1,
                    observedMaxDepth := max s2.observedMaxDepth (d + 1) }).2.1)
                ((generateSubtree cfg f (d + 1)
                  (⌊((rem2 - (used + 1) : ℤ) : ℚ) / ((numC : ℤ) : ℚ)⌋)
                  { k := s2.k + 1 + 1, totalNodes := s2.totalNodes + 1,
                    observedMaxDepth := max s2.observedMaxDepth (d + 1) }).2.2)
              constructor
              · intro c hc
                rcases List.mem_cons.mp hc with h3 | h3
                · subst h3
                  intro u hu
                  rw [mem_allNodes] at hu
                  rcases hu with hu | ⟨g, hg, hug⟩
                  · subst hu
                    refine ⟨by simpa using hval s2.k, ?_⟩
                    rw [getTotalValue_mk]
                    split
                    next hnil =>
                      exact lt_of_lt_of_le (by norm_num) (hval s2.k).1
                    next hnil =>
                      apply List.sum_pos
                      · intro x hx
                        obtain ⟨g, hgmem, hgx⟩ := List.mem_map.mp hx
                        rw [← hgx]
                        exact ((hg1 g hgmem) g (self_mem_allNodes g)).2
                      · intro hmapnil
                        exact hnil (by rw [List.map_eq_nil_iff.mp hmapnil]; rfl)
                  · exact (hg1 g (by simpa using hg)) u hug
                · exact hr1 c h3
              · dsimp only at hg2 hr2
                rw [List.map_cons, List.sum_cons, allNodes_length]
                simp only [TreeNode.children_mk]
                omega
            next hbr =>
              obtain ⟨hr1, hr2⟩ := ihf numC rem2 (used + 1)
                { k := s2.k + 1 + 1, totalNodes := s2.totalNodes + 1,
                  observedMaxDepth := max s2.observedMaxDepth (d + 1) }
              constructor
              · intro c hc
                rcases List.mem_cons.mp hc with h3 | h3
                · subst h3
                  intro u hu
                  rw [mem_allNodes] at hu
                  rcases hu with hu | ⟨g, hg, hug⟩
                  · subst hu
                    refine ⟨by simpa using hval s2.k, ?_⟩
                    rw [getTotalValue_mk]
                    simp only [List.length_nil, if_pos rfl, TreeNode.value_mk]
                    exact lt_of_lt_of_le (by norm_num) (hval s2.k).1
                  · simp at hg
                · exact hr1 c h3
              · dsimp only at hr2
                rw [List.map_cons, List.sum_cons, allNodes_length]
                simp only [TreeNode.children_mk, List.map_nil, List.sum_nil]
                omega
      exact hloop _ _ _ _ _

theorem mem_allNodes_children {t : TreeNode} :
    ∀ {u cc : TreeNode}, u ∈ allNodes t → cc ∈ u.children → cc ∈ allNodes t := by
  refine TreeNode.strong_induction
    (P := fun t => ∀ {u cc : TreeNode}, u ∈ allNodes t → cc ∈ u.children → cc ∈ allNodes t)
    ?_ t
  intro t ih u cc hu hcc
  rcases mem_allNodes.mp hu with hu | ⟨c, hc, huc⟩
  · subst hu
    exact mem_allNodes.mpr (Or.inr ⟨cc, hcc, self_mem_allNodes cc⟩)
  · exact mem_allNodes.mpr (Or.inr ⟨c, hc, ih c hc huc hcc⟩)

theorem assignedRects_map_fst (node : TreeNode) (r : Rect) :
    (assignedRects node r).map Prod.fst = sortedChildren node := by
  rw [assignedRects]
  exact layoutChildren_map_fst _ _ _ r (sortedChildren node) 0

theorem layoutNode_length (t : TreeNode) :
    (∀ u ∈ allNodes t, u.children ≠ [] → 0 < totalChildValue u) →
    ∀ (r : Rect) (p : String), (layoutNode t r p).length = (allNodes t).length := by
  refine TreeNode.strong_induction
    (P := fun t => (∀ u ∈ allNodes t, u.children ≠ [] → 0 < totalChildValue u) →
      ∀ (r : Rect) (p : String), (layoutNode t r p).length = (allNodes t).length)
    ?_ t
  intro t ih hpos r p
  rw [layoutNode_eq, List.length_cons]
  by_cases hlen : t.children.length = 0
  · rw [if_pos hlen, allNodes_length, List.length_eq_zero.mp hlen]
    simp
  · rw [if_neg hlen]
    have hne : t.children ≠ [] := by
      intro hh
      exact hlen (by rw [hh]; rfl)
    have hTpos : 0 < totalChildValue t := hpos t (self_mem_allNodes t) hne
    rw [if_neg (ne_of_gt hTpos), List.length_flatMap]
    have hmapeq : List.map (List.length ∘ fun pa => layoutNode pa.1 pa.2 (p ++ "/" ++ t.name))
        (assignedRects t r)
        = (assignedRects t r).map (fun pa => (allNodes pa.1).length) := by
      apply List.map_congr_left
      intro pa hpa
      have hc := mem_assignedRects hpa
      have hsub : ∀ u ∈ allNodes pa.1, u.children ≠ [] → 0 < totalChildValue u := by
        intro u hu
        exact hpos u (mem_allNodes.mpr (Or.inr ⟨pa.1, hc, hu⟩))
      exact ih pa.1 hc hsub pa.2 (p ++ "/" ++ t.name)
    have hmap2 : (assignedRects t r).map (fun pa => (allNodes pa.1).length)
        = ((assignedRects t r).map Prod.fst).map (fun c => (allNodes c).length) := by
      rw [List.map_map]
      rfl
    have hsum : (((sortedChildren t).map (fun c => (allNodes c).length)).sum : ℕ)
        = (t.children.map (fun c => (allNodes c).length)).sum :=
      ((List.mergeSort_perm t.children _).map (fun c => (allNodes c).length)).sum_eq
    rw [hmapeq, hmap2, assignedRects_map_fst, hsum, allNodes_length]
    omega

theorem attemptLoop_values (cfg : DataGenerationOptions) (f : ℕ → ℚ)
    (hf : ∀ n, 0 ≤ f n ∧ f n < 1) :
    ∀ (fuel attempts : ℕ) (kids : List TreeNode) (s : GenState),
      (∀ c ∈ kids, SubtreeValuesOK c) →
      (∀ c ∈ (attemptLoop cfg f fuel attempts kids s).1, SubtreeValuesOK c)
    ∧ (attemptLoop cfg f fuel attempts kids s).2.1.totalNodes
        + (kids.map (fun c => (allNodes c).length)).sum
      = s.totalNodes
        + (((attemptLoop cfg f fuel attempts kids s).1).map
            (fun c => (allNodes c).length)).sum := by
  intro fuel
  induction fuel with
  | zero =>
    intro attempts kids s hkids
    rw [attemptLoop]
    exact ⟨hkids, rfl⟩
  | succ fuel ihN =>
    intro attempts kids s hkids
    rw [attemptLoop]
    split
    next hcond =>
      dsimp only
      obtain ⟨hg1, hg2⟩ := generateSubtree_values cfg f hf cfg.maxDepth 0 (by omega)
        ((cfg.targetNodeCount : ℤ) - (s.totalNodes : ℤ) + ⌊f s.k * 5000⌋)
        { s with k := s.k + 1 }
      obtain ⟨hr1, hr2⟩ := ihN (attempts + 1)
        (kids ++ (generateSubtree cfg f 0
          ((cfg.targetNodeCount : ℤ) - (s.totalNodes : ℤ) + ⌊f s.k * 5000⌋)
          { s with k := s.k + 1 }).1)
        ((generateSubtree cfg f 0
          ((cfg.targetNodeCount : ℤ) - (s.totalNodes : ℤ) + ⌊f s.k * 5000⌋)
          { s with k := s.k + 1 }).2.2)
        (by
          intro c hc
          rcases List.mem_append.mp hc with h | h
          · exact hkids c h
          · exact hg1 c h)
      refine ⟨hr1, ?_⟩
      rw [List.map_append, List.sum_append] at hr2
      dsimp only at hg2
      omega
    next hcond =>
      exact ⟨hkids, rfl⟩

/-- C10 (amended). Implicit weight invariants of generator-produced trees:
under the PRNG range contract (`rng()` in `[0, 1)`), every created (non-root)
node's own weight lies in `[10, 110)` and every created node's aggregate
weight is strictly positive; every node with a non-empty child list — the
root included — has strictly positive total child weight, so the layout's
zero-total-weight short-circuit never fires; consequently the flat output of
one layout pass contains exactly one record per tree node: its length equals
the returned `nodeCount`. (The claim's stronger reading that every node has
strictly positive aggregate weight fails for a childless root, whose
aggregate weight is 0 — see the counterexample.) -/
theorem generated_weights (cfg : DataGenerationOptions) (F : String → ℕ → ℚ)
    (hF : ∀ s n, 0 ≤ F s n ∧ F s n < 1) :
    (∀ t ∈ descendants (generateHierarchicalData cfg F).root,
        (10 ≤ t.value ∧ t.value < 110) ∧ 0 < getTotalValue t)
  ∧ (∀ t ∈ allNodes (generateHierarchicalData cfg F).root,
        t.children ≠ [] → 0 < totalChildValue t)
  ∧ (∀ w h : ℚ, (createTreemapLayout (generateHierarchicalData cfg F).root w h).length
        = (generateHierarchicalData cfg F).nodeCount) := by
  obtain ⟨hv, hcount⟩ := attemptLoop_values cfg (F (toString cfg.seed))
    (fun n => hF (toString cfg.seed) n) 10 0 []
    { k := 0, totalNodes := 1, observedMaxDepth := 0 } (by intro c hc; simp at hc)
  have hroot : (generateHierarchicalData cfg F).root =
      TreeNode.mk "root" 0 0 (attemptLoop cfg (F (toString cfg.seed)) 10 0 []
        { k := 0, totalNodes := 1, observedMaxDepth := 0 }).1 := rfl
  have hpos : ∀ t ∈ allNodes (generateHierarchicalData cfg F).root,
      t.children ≠ [] → 0 < totalChildValue t := by
    intro t ht hne
    rw [hroot] at ht
    rcases mem_allNodes.mp ht with ht | ⟨c, hc, htc⟩
    · rw [totalChildValue]
      apply List.sum_pos
      · intro x hx
        obtain ⟨g, hgmem, hgx⟩ := List.mem_map.mp hx
        rw [← hgx]
        have hg : g ∈ (attemptLoop cfg (F (toString cfg.seed)) 10 0 []
            { k := 0, totalNodes := 1, observedMaxDepth := 0 }).1 := by
          rw [ht] at hgmem
          simpa using hgmem
        exact (hv g hg g (self_mem_allNodes g)).2
      · intro hmapnil
        rw [List.map_eq_nil_iff.mp hmapnil] at hne
        exact hne rfl
    · rw [totalChildValue]
      apply List.sum_pos
      · intro x hx
        obtain ⟨g, hgmem, hgx⟩ := List.mem_map.mp hx
        rw [← hgx]
        have hg : g ∈ allNodes c :=
          mem_allNodes_children htc hgmem
        exact (hv c (by simpa using hc) g hg).2
      · intro hmapnil
        rw [List.map_eq_nil_iff.mp hmapnil] at hne
        exact hne rfl
  refine ⟨?_, hpos, ?_⟩
  · intro t ht
    rw [hroot] at ht
    obtain ⟨c, hc, htc⟩ := mem_descendants.mp ht
    have hcall : t ∈ allNodes c := by
      rw [allNodes, List.mem_cons]
      exact htc
    exact hv c (by simpa using hc) t hcall
  · intro w h
    rw [createTreemapLayout, layoutNode_length (generateHierarchicalData cfg F).root hpos]
    have hlen : (allNodes (generateHierarchicalData cfg F).root).length
        = 1 + (((attemptLoop cfg (F (toString cfg.seed)) 10 0 []
            { k := 0, totalNodes := 1, observedMaxDepth := 0 }).1).map
              (fun c => (allNodes c).length)).sum := by
      rw [hroot, allNodes_length]
      simp
    have hnc : (generateHierarchicalData cfg F).nodeCount
        = (attemptLoop cfg (F (toString cfg.seed)) 10 0 []
            { k := 0, totalNodes := 1, observedMaxDepth := 0 }).2.1.totalNodes := rfl
    rw [hlen, hnc]
    simp only [List.map_nil, List.sum_nil] at hcount
    omega

/-- Concrete valid configuration (`targetNodeCount = 2`, `maxDepth = 1`,
exactly one child per node, `branchProbability = 1/2`, seed 1) for the
weight-invariant witness. -/
def smallCfg : DataGenerationOptions := ⟨2, 1, 1, 1, 1/2, 1⟩

theorem generated_weights_witness :
    (∀ s n, 0 ≤ constStream s n ∧ constStream s n < 1)
  ∧ ((∀ t ∈ descendants (generateHierarchicalData smallCfg constStream).root,
        (10 ≤ t.value ∧ t.value < 110) ∧ 0 < getTotalValue t)
  ∧ (∀ t ∈ allNodes (generateHierarchicalData smallCfg constStream).root,
        t.children ≠ [] → 0 < totalChildValue t)
  ∧ (∀ w h : ℚ,
        (createTreemapLayout (generateHierarchicalData smallCfg constStream).root w h).length
          = (generateHierarchicalData smallCfg constStream).nodeCount)) := by
  have hF : ∀ s n, 0 ≤ constStream s n ∧ constStream s n < 1 := by
    intro s n
    constructor <;> norm_num [constStream]
  exact ⟨hF, generated_weights smallCfg constStream hF⟩

/-- Configuration with `targetNodeCount = 1`: the attempt loop never runs and
the builder legitimately returns the bare root. -/
def rootOnlyCfg : DataGenerationOptions := ⟨1, 8, 2, 8, 3/5, 1⟩

/-- C10 (counterexample). A generator-produced tree in which a node's
aggregate weight is not strictly positive: with the valid configuration
`targetNodeCount = 1` the builder returns a childless root, and
`getTotalValue` of that root is 0, refuting the claim that in any
generator-produced tree every node's aggregate weight is strictly
positive. -/
theorem generated_weights_counterexample :
    getTotalValue (generateHierarchicalData rootOnlyCfg constStream).root = 0 := by
  have hloop : (attemptLoop rootOnlyCfg (constStream (toString rootOnlyCfg.seed)) 10 0 []
      { k := 0, totalNodes := 1, observedMaxDepth := 0 }).1 = [] := by
    rw [show (10 : ℕ) = 9 + 1 from rfl, attemptLoop]
    rw [if_neg (by decide)]
  have hroot : (generateHierarchicalData rootOnlyCfg constStream).root =
      TreeNode.mk "root" 0 0 (attemptLoop rootOnlyCfg (constStream (toString rootOnlyCfg.seed)) 10 0 []
        { k := 0, totalNodes := 1, observedMaxDepth := 0 }).1 := rfl
  rw [hroot, hloop]
  simp

end Treemap
